import Mathlib

/-!
A verification development for the `gpturd` model engine: a shallow
embedding in Lean 4 of the vocabulary codec (`src/data/convert.rs`), the
dataset builder (`src/data/parse.rs`, `src/data/tokenize.rs`), and the
model training / generation / worker loops (`src/model.rs`), together
with theorems about the embedded definitions.

Conventions of the embedding:
* Rust `usize`/`u8` values are modelled as `Nat` (no arithmetic in the
  embedded code ever overflows these widths at the sizes involved).
* `f64`/`f32` quantities that the claims depend on only through exact
  arithmetic (the 0.9/0.1 split fractions, cumulative sums of softmax
  probabilities, uniform draws) are modelled as `Rat`; where the floating
  point evaluation matters it is discussed at the definition.
* A Rust panic (index out of bounds, `%` by zero) is modelled as `none` /
  an explicit `panic` abort value; a Rust `Result` error as an explicit
  error value.
* Channel sends are modelled by boolean send-outcome oracles: `true`
  means the receiver is still connected and the send succeeds; the trace
  of a run collects the messages that were actually delivered.
-/

namespace GpTurd

/-! ## Vocabulary codec (`src/data/convert.rs`) -/

/-- `LETTERS` from `convert.rs`: the delimiter `'.'` at index 0 followed by
the 26 lowercase letters. -/
def LETTERS : List Char :=
  ['.', 'a', 'b', 'c', 'd', 'e', 'f', 'g', 'h', 'i', 'j', 'k', 'l', 'm',
   'n', 'o', 'p', 'q', 'r', 's', 't', 'u', 'v', 'w', 'x', 'y', 'z']

/-- `Iterator::position` as used in `ltoi`: index of the first element
equal to `c`, or `none`. -/
def positionIdx (c : Char) : List Char → Option Nat
  | [] => none
  | x :: xs => if x = c then some 0 else (positionIdx c xs).map (· + 1)

/-- `ltoi` from `convert.rs`: `LETTERS.iter().position(|&ch| ch == c)`,
defaulting to `LETTERS.len() - 1` (the index of `'z'`, 26) when absent. -/
def ltoi (c : Char) : Nat :=
  (positionIdx c LETTERS).getD (LETTERS.length - 1)

/-- `itol` from `convert.rs`: `LETTERS.get(index)`, defaulting to `'z'`
when the index is out of range. -/
def itol (i : Nat) : Char :=
  LETTERS.getD i 'z'

/-! ## Dataset split (`src/data/parse.rs`) -/

/-- The split point of `training_data`: `(data.len() as f64 * 0.9).round()
as usize`.  Modelled with exact rational arithmetic and Mathlib's `round`
(round-half-up, which agrees with `f64::round`'s round-half-away-from-zero
on the nonnegative values arising here; for word-list sizes in the range a
data file produces, `n as f64 * 0.9` rounds to the same integer as the
exact product `n * 9/10`). -/
def trainingEnd (n : Nat) : Nat :=
  (round ((n : ℚ) * (9 / 10))).toNat

/-- The train/validation split of `training_data`: after shuffling,
`data[..training_end]` is the training word list and `data[training_end..]`
the validation word list.  The shuffle is an arbitrary permutation, so the
theorems quantify over an arbitrary (already shuffled) word list. -/
def splitWords (words : List String) : List String × List String :=
  (words.take (trainingEnd words.length), words.drop (trainingEnd words.length))

/-! ## Generation sampling (`src/model.rs`, `Model::generate` lines 149-157) -/

/-- The scan in `Model::generate`: starting from `position = 0`, walk the
cumulative-sum vector left to right and stop at the first index whose
entry is `>= r` (`random_val <= sum`); if no entry qualifies, `position`
keeps its initial value `0`. -/
def sampleGo (r : ℚ) : List ℚ → Nat → Nat
  | [], _ => 0
  | s :: rest, i => if r ≤ s then i else sampleGo r rest (i + 1)

/-- The sampled index for a cumulative-sum vector `cs` and draw `r`. -/
def sampleIndex (cs : List ℚ) (r : ℚ) : Nat :=
  sampleGo r cs 0

/-- `probs.cumsum(1)`: left-to-right cumulative sums of a probability
vector. -/
def cumsum (l : List ℚ) : List ℚ :=
  (l.scanl (· + ·) 0).tail

/-- The concrete probability vector of the spec's sampling test:
`[0.0, 0.0, 1.0, 0.0, ...]` over the 27 vocabulary symbols. -/
def probOneHot2 : List ℚ :=
  [0, 0, 1] ++ List.replicate 24 0

/-! ## Helper lemmas -/

theorem trainingEnd_le (n : Nat) : trainingEnd n ≤ n := by
  unfold trainingEnd
  have h : round ((n : ℚ) * (9 / 10)) ≤ (n : ℤ) := by
    rw [round_eq, Int.floor_le_iff]
    have hn : (0 : ℚ) ≤ (n : ℚ) := Nat.cast_nonneg n
    push_cast
    linarith
  exact Int.toNat_le.mpr h

theorem positionIdx_eq_none {c : Char} {l : List Char} (h : c ∉ l) :
    positionIdx c l = none := by
  induction l with
  | nil => rfl
  | cons x xs ih =>
    rw [List.mem_cons, not_or] at h
    simp [positionIdx, Ne.symm h.1, ih h.2]

theorem ltoi_of_not_mem {c : Char} (h : c ∉ LETTERS) : ltoi c = 26 := by
  unfold ltoi
  rw [positionIdx_eq_none h]
  rfl

theorem itol_roundtrip : ∀ c ∈ LETTERS, itol (ltoi c) = c := by decide

theorem sampleGo_of_forall_lt {r : ℚ} {cs : List ℚ} (h : ∀ s ∈ cs, s < r) :
    ∀ i, sampleGo r cs i = 0 := by
  induction cs with
  | nil => intro i; rfl
  | cons s rest ih =>
    intro i
    have hs : ¬ r ≤ s := not_le.mpr (h s (List.mem_cons_self s rest))
    simp only [sampleGo, if_neg hs]
    exact ih (fun x hx => h x (List.mem_cons_of_mem s hx)) (i + 1)

theorem sampleGo_eq_first {r : ℚ} :
    ∀ (cs : List ℚ) (i : Nat) (h : i < cs.length), r ≤ cs.get ⟨i, h⟩ →
      (∀ j (hj : j < i), ¬ r ≤ cs.get ⟨j, lt_trans hj h⟩) →
      ∀ k, sampleGo r cs k = k + i := by
  intro cs
  induction cs with
  | nil => intro i h; exact absurd h (by simp)
  | cons s rest ih =>
    intro i h hq hmin k
    match i with
    | 0 =>
      simp only [List.get] at hq
      simp [sampleGo, if_pos hq]
    | i' + 1 =>
      have hs : ¬ r ≤ s := by
        have := hmin 0 (Nat.succ_pos i')
        simpa using this
      simp only [sampleGo, if_neg hs]
      have h' : i' < rest.length := Nat.lt_of_succ_lt_succ h
      have hq' : r ≤ rest.get ⟨i', h'⟩ := by simpa using hq
      have hmin' : ∀ j (hj : j < i'), ¬ r ≤ rest.get ⟨j, lt_trans hj h'⟩ := by
        intro j hj
        have := hmin (j + 1) (Nat.succ_lt_succ hj)
        simpa using this
      rw [ih i' h' hq' hmin' (k + 1)]
      omega

/-! ## Claim theorems: dataset split, sampling, vocabulary codec -/

/-- C1 (counterexample): on a 5-word list the code's split puts 0 words in
the validation set (`training_end = round(4.5) = 5`), while the claim's
formula `round(0.1 * 5)` gives 1. -/
theorem c1_split_counterexample :
    (splitWords ["a", "b", "c", "d", "e"]).2.length ≠
      (round (((["a", "b", "c", "d", "e"] : List String).length : ℚ) * (1 / 10))).toNat := by
  have h : trainingEnd 5 = 5 := by unfold trainingEnd; norm_num [round_eq]; decide
  have h2 : (splitWords ["a", "b", "c", "d", "e"]).2.length = 0 := by
    simp [splitWords, h]
  rw [h2]
  norm_num [round_eq]

/-- C1 (amended): for a shuffled word list of size N the training split is
`words[0 .. round(0.9 * N))` and the validation split is the remaining
`N - round(0.9 * N)` words (which differs from `round(0.1 * N)` for some N,
e.g. N = 5); the two splits partition the list. -/
theorem c1_split_counts (words : List String) :
    (splitWords words).1.length = trainingEnd words.length ∧
    (splitWords words).2.length = words.length - trainingEnd words.length ∧
    (splitWords words).1 ++ (splitWords words).2 = words := by
  refine ⟨?_, ?_, ?_⟩
  · simp [splitWords, List.length_take, Nat.min_eq_left (trainingEnd_le words.length)]
  · simp [splitWords, List.length_drop]
  · simp [splitWords, List.take_append_drop]

/-- C2 (counterexample): the claim says the sampler returns index 2 for the
probability vector `[0, 0, 1, 0, ...]` regardless of the draw `r ∈ [0,1)`;
at `r = 0` the first cumulative sum (0) already satisfies `r <= sum`, so the
code returns index 0, not 2. -/
theorem c2_sample_counterexample :
    sampleIndex (cumsum probOneHot2) 0 ≠ 2 := by
  norm_num [sampleIndex, cumsum, probOneHot2, sampleGo, List.scanl]

/-- C2 (amended): the sampler selects the first index whose left-to-right
cumulative sum is `>= r`, and if no index qualifies it keeps the initial
value 0 (the delimiter index), not the last index; for the one-hot vector
`[0, 0, 1, 0, ...]` it returns index 2 for every draw `r` with `0 < r < 1`
(at `r = 0` it returns index 0). -/
theorem c2_sample_first_index :
    (∀ (cs : List ℚ) (r : ℚ), (∀ s ∈ cs, s < r) → sampleIndex cs r = 0) ∧
    (∀ (cs : List ℚ) (r : ℚ) (i : Nat) (h : i < cs.length),
      r ≤ cs.get ⟨i, h⟩ →
      (∀ j (hj : j < i), ¬ r ≤ cs.get ⟨j, lt_trans hj h⟩) →
      sampleIndex cs r = i) ∧
    (∀ r : ℚ, 0 < r → r < 1 → sampleIndex (cumsum probOneHot2) r = 2) := by
  refine ⟨?_, ?_, ?_⟩
  · intro cs r h
    exact sampleGo_of_forall_lt h 0
  · intro cs r i h hq hmin
    have := sampleGo_eq_first cs i h hq hmin 0
    simpa [sampleIndex] using this
  · intro r h0 h1
    have hr0 : ¬ (r ≤ 0) := not_le.mpr h0
    have hr1 : r ≤ 1 := le_of_lt h1
    norm_num [sampleIndex, cumsum, probOneHot2, sampleGo, List.scanl, hr0, hr1]

/-- C2 (witness): the amended sampling theorem at the concrete draw
`r = 1/2` on the one-hot vector. -/
theorem c2_sample_first_index_witness :
    sampleIndex (cumsum probOneHot2) (1 / 2) = 2 :=
  c2_sample_first_index.2.2 (1 / 2) (by norm_num) (by norm_num)

/-- C8: `ltoi` is injective on `{'.', 'a'..'z'}` and maps every other
character to 26 (the index of `'z'`); `itol` clamps out-of-range indices to
`'z'`; and for printable ASCII `c`, `itol (ltoi c)` is `c` when `c` is in
the vocabulary and `'z'` otherwise. -/
theorem c8_codec :
    (∀ c ∈ LETTERS, ∀ d ∈ LETTERS, ltoi c = ltoi d → c = d) ∧
    (∀ c : Char, c ∉ LETTERS → ltoi c = 26) ∧
    (∀ i : Nat, 27 ≤ i → itol i = 'z') ∧
    (∀ c : Char, 32 ≤ c.toNat → c.toNat ≤ 126 →
      itol (ltoi c) = if c ∈ LETTERS then c else 'z') := by
  refine ⟨by decide, ?_, ?_, ?_⟩
  · intro c hc
    exact ltoi_of_not_mem hc
  · intro i hi
    unfold itol
    apply List.getD_eq_default
    simpa [LETTERS] using hi
  · intro c _ _
    by_cases hc : c ∈ LETTERS
    · rw [if_pos hc]
      exact itol_roundtrip c hc
    · rw [if_neg hc, ltoi_of_not_mem hc]
      rfl

/-- C8 (witness): the codec theorem at the concrete printable characters
`'q'` (in the vocabulary) and `'Q'` (outside it). -/
theorem c8_codec_witness :
    itol (ltoi 'q') = 'q' ∧ itol (ltoi 'Q') = 'z' := by
  constructor
  · have h := c8_codec.2.2.2 'q' (by decide) (by decide)
    rwa [if_pos (by decide)] at h
  · have h := c8_codec.2.2.2 'Q' (by decide) (by decide)
    rwa [if_neg (by decide)] at h

/-! ## Tokenization (`src/data/tokenize.rs`) -/

/-- The inner loop of `tokenize`: for each character, record the pair
(current context copy, encoded character), then slide the context by
dropping its first element (`context.remove(0)`) and appending the encoded
character (`context.push`).  `List.tail` models `Vec::remove(0)`, which in
the source panics when the context is empty; every theorem below assumes
`0 < block_size`, under which the context is never empty. -/
def tokenizeGo (ctx : List Nat) : List Char → List (List Nat × Nat)
  | [] => []
  | c :: rest => (ctx, ltoi c) :: tokenizeGo (ctx.tail ++ [ltoi c]) rest

/-- The per-word part of `tokenize`: the context starts as `block_size`
zeros (`vec![0; block_size]`) and the word's characters are followed by the
trailing delimiter (`chars.push(delimiter)`, where the delimiter is
`LETTERS[0] = '.'`). -/
def wordPairs (b : Nat) (w : List Char) : List (List Nat × Nat) :=
  tokenizeGo (List.replicate b 0) (w ++ ['.'])

/-- The row-building loop of `tokenize` over a word list: the `input` and
`target` vectors are the concatenated contexts and targets of all words. -/
def tokenizeRows (b : Nat) (words : List String) : List (List Nat) × List Nat :=
  let pairs := (words.map (fun w => wordPairs b w.toList)).flatten
  (pairs.map Prod.fst, pairs.map Prod.snd)

/-- `tokenize` including the tensor-stacking step, whose shape is
`(input.len(), input[0].len())`: the indexing `input[0]` panics (modelled
as `none`) when the row list is empty; otherwise the result carries the
shape and the rows. -/
def tokenize (b : Nat) (words : List String) :
    Option ((Nat × Nat) × (List (List Nat) × List Nat)) :=
  let rows := tokenizeRows b words
  match rows.1 with
  | [] => none
  | r :: _ => some ((rows.1.length, r.length), rows)

theorem tokenizeGo_length (cs : List Char) :
    ∀ ctx : List Nat, (tokenizeGo ctx cs).length = cs.length := by
  induction cs with
  | nil => intro ctx; rfl
  | cons c rest ih => intro ctx; simp [tokenizeGo, ih]

theorem tokenizeGo_ctx_length {b : Nat} (hb : 0 < b) :
    ∀ (cs : List Char) (ctx : List Nat), ctx.length = b →
      ∀ p ∈ tokenizeGo ctx cs, p.1.length = b := by
  intro cs
  induction cs with
  | nil =>
    intro ctx _ p hp
    simp [tokenizeGo] at hp
  | cons c rest ih =>
    intro ctx hctx p hp
    simp only [tokenizeGo, List.mem_cons] at hp
    rcases hp with h | h
    · subst h
      exact hctx
    · refine ih (ctx.tail ++ [ltoi c]) ?_ p h
      simp [List.length_tail, hctx]
      omega

theorem tokenizeGo_chain (cs : List Char) :
    ∀ ctx : List Nat,
      List.Chain' (fun p q => q.1 = p.1.tail ++ [p.2]) (tokenizeGo ctx cs) := by
  induction cs with
  | nil => intro ctx; simp [tokenizeGo]
  | cons c rest ih =>
    intro ctx
    cases rest with
    | nil => simp [tokenizeGo]
    | cons c2 rest2 =>
      simp only [tokenizeGo]
      rw [List.chain'_cons]
      exact ⟨rfl, ih (ctx.tail ++ [ltoi c])⟩

/-- C7: tokenizing a word of length L with block size b > 0 produces
exactly L+1 (context, target) pairs; the first context is b zeros; every
context has length b; each later context is the previous one with its
first element dropped and the previous target appended; and within any
split the input and target row counts agree. -/
theorem c7_tokenize_pairs (b : Nat) (hb : 0 < b) (w : List Char) :
    (wordPairs b w).length = w.length + 1 ∧
    (wordPairs b w).head?.map Prod.fst = some (List.replicate b 0) ∧
    (∀ p ∈ wordPairs b w, p.1.length = b) ∧
    List.Chain' (fun p q => q.1 = p.1.tail ++ [p.2]) (wordPairs b w) ∧
    (∀ words : List String,
      (tokenizeRows b words).1.length = (tokenizeRows b words).2.length) := by
  refine ⟨?_, ?_, ?_, ?_, ?_⟩
  · rw [wordPairs, tokenizeGo_length]
    simp
  · cases w with
    | nil => simp [wordPairs, tokenizeGo]
    | cons c rest => simp [wordPairs, tokenizeGo]
  · exact tokenizeGo_ctx_length hb (w ++ ['.']) (List.replicate b 0) (by simp)
  · exact tokenizeGo_chain (w ++ ['.']) (List.replicate b 0)
  · intro words
    simp only [tokenizeRows, List.length_map]

/-- C7 (witness): the tokenization theorem at block size 2 on the concrete
word `"hi"`. -/
theorem c7_tokenize_pairs_witness :
    (wordPairs 2 ['h', 'i']).length = 2 + 1 ∧
    (wordPairs 2 ['h', 'i']).head?.map Prod.fst = some (List.replicate 2 0) := by
  have h := c7_tokenize_pairs 2 (by decide) ['h', 'i']
  exact ⟨h.1, h.2.1⟩

/-- C3: the tensor-stacking step of `tokenize` does not guard the empty
split: on an empty word list the row list is empty and the shape
computation indexes `input[0]`, a panic (modelled as `none`) rather than an
explicit error.  A concrete five-word data file exhibits it: the split
sends all five words to training (`round(4.5) = 5`), the validation split
is empty, and tokenizing it panics. -/
theorem c3_empty_split_panics :
    (∀ b : Nat, tokenize b [] = none) ∧
    (∀ b : Nat, tokenize b (splitWords ["ann", "bob", "cat", "dan", "eve"]).2 = none) := by
  constructor
  · intro b
    rfl
  · intro b
    have h : trainingEnd 5 = 5 := by unfold trainingEnd; norm_num [round_eq]; decide
    have h2 : (splitWords ["ann", "bob", "cat", "dan", "eve"]).2 = [] := by
      simp [splitWords, h]
    rw [h2]
    rfl

/-! ## Messages and the training loop (`src/model.rs`, `Model::train`)

The claims about `Model::train` concern the cadence and delivery of
progress messages and the loop's abort behaviour, not the numeric loss
values, so `Msg` carries iteration numbers and generated texts but not the
`f32` losses.  Channel sends are modelled by boolean oracles (`tOk` for the
training-loss send at iteration `count`, `vOk` for the validation-loss
send, `fOk` for the final `Finished` send): the trace collects the
messages actually delivered.  The training-loss send's result is discarded
(`let _ = sender.send(..)`), while the validation and `Finished` sends use
`?` and so abort the loop on failure. -/

inductive Msg where
  | training (iteration : Nat)
  | validation (iteration : Nat)
  | generated (text : List Char)
  | finished
  | error
  deriving DecidableEq, Repr

/-- How a `Model::train` call can end abnormally: a Rust panic (the
`count % (iterations / 10)` modulus with a zero divisor), or an `Err`
propagated from a failed `?`-send. -/
inductive TrainAbort where
  | panic
  | sendError
  deriving DecidableEq, Repr

/-- The body of `for count in start..start + iterations`: run the batch
step (numerics abstracted away), best-effort-send the training-loss
progress message, then test `count % (iterations / 10) == 0` — a panic
when the divisor is zero — and on hit, `?`-send the validation-loss
progress message.  `fuel` counts the remaining iterations. -/
def trainGo (tOk vOk : Nat → Bool) (divisor : Nat) : Nat → Nat → List Msg × Option TrainAbort
  | _, 0 => ([], none)
  | count, fuel + 1 =>
    let tmsgs := if tOk count then [Msg.training count] else []
    if divisor = 0 then (tmsgs, some TrainAbort.panic)
    else if count % divisor = 0 then
      if vOk count then
        let rest := trainGo tOk vOk divisor (count + 1) fuel
        (tmsgs ++ Msg.validation count :: rest.1, rest.2)
      else (tmsgs, some TrainAbort.sendError)
    else
      let rest := trainGo tOk vOk divisor (count + 1) fuel
      (tmsgs ++ rest.1, rest.2)

/-- `Model::train`: the loop over `start..start + iterations` with divisor
`iterations / 10`, followed by the `?`-send of `Finished`. -/
def trainModel (tOk vOk : Nat → Bool) (fOk : Bool) (iterations start : Nat) :
    List Msg × Option TrainAbort :=
  let run := trainGo tOk vOk (iterations / 10) start iterations
  match run.2 with
  | some a => (run.1, some a)
  | none =>
    if fOk then (run.1 ++ [Msg.finished], none)
    else (run.1, some TrainAbort.sendError)

/-- With a nonzero divisor and validation sends succeeding, the loop never
aborts, and the delivered validation messages are exactly those for counts
in `[count, count + fuel)` divisible by the divisor (whatever the
training-send outcomes). -/
theorem trainGo_ok (tOk : Nat → Bool) {divisor : Nat} (hd : divisor ≠ 0) :
    ∀ (fuel count : Nat),
      (trainGo tOk (fun _ => true) divisor count fuel).2 = none ∧
      (∀ c, Msg.validation c ∈ (trainGo tOk (fun _ => true) divisor count fuel).1 ↔
        (count ≤ c ∧ c < count + fuel ∧ c % divisor = 0)) := by
  intro fuel
  induction fuel with
  | zero =>
    intro count
    constructor
    · rfl
    · intro c
      simp only [trainGo, List.not_mem_nil, false_iff]
      omega
  | succ f ih =>
    intro count
    have hmem : ∀ c, Msg.validation c ∈ (if tOk count then [Msg.training count] else []) ↔ False := by
      intro c
      by_cases h : tOk count <;> simp [h]
    by_cases hmod : count % divisor = 0
    · constructor
      · simp only [trainGo, if_neg hd, if_pos hmod, if_pos rfl]
        exact (ih (count + 1)).1
      · intro c
        simp only [trainGo, if_neg hd, if_pos hmod, if_true, List.mem_append,
          List.mem_cons, hmem, false_or, Msg.validation.injEq]
        rw [(ih (count + 1)).2 c]
        constructor
        · rintro (rfl | ⟨h1, h2, h3⟩)
          · exact ⟨le_refl c, by omega, hmod⟩
          · exact ⟨by omega, by omega, h3⟩
        · rintro ⟨h1, h2, h3⟩
          by_cases hc : c = count
          · exact Or.inl hc
          · exact Or.inr ⟨by omega, by omega, h3⟩
    · constructor
      · simp only [trainGo, if_neg hd, if_neg hmod]
        exact (ih (count + 1)).1
      · intro c
        simp only [trainGo, if_neg hd, if_neg hmod, List.mem_append, hmem, false_or]
        rw [(ih (count + 1)).2 c]
        constructor
        · rintro ⟨h1, h2, h3⟩
          exact ⟨by omega, by omega, h3⟩
        · rintro ⟨h1, h2, h3⟩
          have hc : c ≠ count := fun h => hmod (h ▸ h3)
          exact ⟨by omega, by omega, h3⟩

/-- C4 (counterexample): the claim says that for every `iterations >= 1`
the cadence computation never takes a modulus by zero; at `iterations = 5`
the divisor `iterations / 10` is 0 and the first loop iteration evaluates
`count % 0`, a panic. -/
theorem c4_cadence_counterexample :
    (trainModel (fun _ => true) (fun _ => true) true 5 0).2 = some TrainAbort.panic := by
  rfl

/-- C4 (amended): for `iterations >= 10` the divisor `iterations / 10` is
nonzero, the modulus never divides by zero, the run completes, and a
validation-loss progress message is delivered exactly at the counts in
`[start, start + iterations)` divisible by `iterations / 10`; for
`1 <= iterations <= 9` the first iteration computes `count % 0` and
panics. -/
theorem c4_validation_cadence (iterations start : Nat) (h : 10 ≤ iterations) :
    (trainModel (fun _ => true) (fun _ => true) true iterations start).2 = none ∧
    (∀ c, Msg.validation c ∈ (trainModel (fun _ => true) (fun _ => true) true iterations start).1 ↔
      (start ≤ c ∧ c < start + iterations ∧ c % (iterations / 10) = 0)) := by
  have hd : iterations / 10 ≠ 0 := by omega
  have hgo := trainGo_ok (fun _ => true) hd iterations start
  constructor
  · simp only [trainModel, hgo.1, if_true]
  · intro c
    simp only [trainModel, hgo.1, if_true, List.mem_append, List.mem_singleton]
    rw [hgo.2 c]
    simp

/-- C4 (witness): the cadence theorem at `iterations = 10`, `start = 0`:
the run completes and a validation message is delivered at count 0. -/
theorem c4_validation_cadence_witness :
    (trainModel (fun _ => true) (fun _ => true) true 10 0).2 = none ∧
    Msg.validation 0 ∈ (trainModel (fun _ => true) (fun _ => true) true 10 0).1 := by
  refine ⟨(c4_validation_cadence 10 0 (by decide)).1, ?_⟩
  exact ((c4_validation_cadence 10 0 (by decide)).2 0).mpr (by decide)

/-- C5: send-failure asymmetry in `Model::train`: even if every
training-loss progress send fails (receiver gone), the loop runs to
completion with no error, whereas a failed validation-loss progress send
aborts the loop with a send error. -/
theorem c5_send_asymmetry (iterations : Nat) (h : 10 ≤ iterations) :
    (∀ (tOk : Nat → Bool) (start : Nat),
      (trainModel tOk (fun _ => true) true iterations start).2 = none) ∧
    (trainModel (fun _ => true) (fun _ => false) true iterations 0).2 = some TrainAbort.sendError := by
  have hd : iterations / 10 ≠ 0 := by omega
  constructor
  · intro tOk start
    have hgo := trainGo_ok tOk hd iterations start
    simp only [trainModel, hgo.1, if_true]
  · obtain ⟨f, rfl⟩ : ∃ f, iterations = f + 1 := ⟨iterations - 1, by omega⟩
    simp [trainModel, trainGo, hd]

/-- C5 (witness): the asymmetry theorem at `iterations = 10`: all training
sends failing still completes; a failing validation send aborts. -/
theorem c5_send_asymmetry_witness :
    (trainModel (fun _ => false) (fun _ => true) true 10 3).2 = none ∧
    (trainModel (fun _ => true) (fun _ => false) true 10 0).2 = some TrainAbort.sendError :=
  ⟨(c5_send_asymmetry 10 (by decide)).1 (fun _ => false) 3,
   (c5_send_asymmetry 10 (by decide)).2⟩

/-! ## The worker loop (`src/model.rs`, `run_model`)

`run_model` blocks on the command channel: on `Train` it runs
`model.train` and on `Vibe` (Generate) it runs `model.generate`, in either
case converting an `Err` return into an `Error` result message
(`unwrap_or_else`) and continuing; on `Shutdown` or on channel
disconnection (`Err(_)` from `recv`) it breaks out of the loop.  The
outcome of the k-th dispatched operation is abstracted by an oracle
`op k = (delivered messages, whether the operation returned Err)`; the
incoming command stream is a list, its end modelling disconnection. -/

inductive Command where
  | train (iterations start : Nat)
  | vibe (count : Nat)
  | shutdown
  deriving DecidableEq, Repr

/-- The dispatch loop of `run_model`: the trace of delivered result
messages, where `k` counts the operations already dispatched. -/
def runModel (op : Nat → List Msg × Bool) (k : Nat) : List Command → List Msg
  | [] => []
  | Command.shutdown :: _ => []
  | Command.train _ _ :: rest =>
    (op k).1 ++ (if (op k).2 then [Msg.error] else []) ++ runModel op (k + 1) rest
  | Command.vibe _ :: rest =>
    (op k).1 ++ (if (op k).2 then [Msg.error] else []) ++ runModel op (k + 1) rest

/-- C6: the worker loop catches every operation error: it exits exactly at
the first `Shutdown` (or at disconnection, the end of the stream), and on
a shutdown-free command prefix it emits one `Error` result per erroring
operation while processing every command of the prefix — an error never
terminates the worker. -/
theorem c6_worker_loop (op : Nat → List Msg × Bool) (cmds1 cmds2 : List Command) (k : Nat)
    (hs : Command.shutdown ∉ cmds1)
    (hclean : ∀ i, Msg.error ∉ (op i).1) :
    runModel op k (cmds1 ++ Command.shutdown :: cmds2) = runModel op k cmds1 ∧
    (runModel op k cmds1).count Msg.error =
      (List.range cmds1.length).countP (fun i => (op (k + i)).2) := by
  induction cmds1 generalizing k with
  | nil =>
    exact ⟨rfl, rfl⟩
  | cons c rest ih =>
    rw [List.mem_cons, not_or] at hs
    have ihr := ih (k + 1) hs.2
    have hstep : ∀ tail, runModel op k (c :: tail) =
        (op k).1 ++ (if (op k).2 then [Msg.error] else []) ++ runModel op (k + 1) tail := by
      intro tail
      cases c with
      | train its st => rfl
      | vibe n => rfl
      | shutdown => exact absurd rfl hs.1
    have hcount0 : ((op k).1).count Msg.error = 0 :=
      List.count_eq_zero.mpr (hclean k)
    have hrange : (List.range (rest.length + 1)).countP (fun i => (op (k + i)).2) =
        (if (op k).2 then 1 else 0) +
          (List.range rest.length).countP (fun i => (op (k + 1 + i)).2) := by
      rw [List.range_succ_eq_map, List.countP_cons, List.countP_map]
      have he : ((fun i => (op (k + i)).2) ∘ fun i => i + 1) =
          fun i => (op (k + 1 + i)).2 := by
        funext i
        have harith : k + (i + 1) = k + 1 + i := by omega
        simp [Function.comp, harith]
      rw [he]
      simp [Nat.add_comm]
    constructor
    · rw [List.cons_append, hstep, hstep, ihr.1]
    · rw [hstep, List.length_cons, hrange, List.count_append, List.count_append,
        hcount0, ihr.2]
      by_cases hk : (op k).2 <;> simp [hk]

/-- C6 (witness): the worker-loop theorem on a concrete stream: two
operations (the first erroring), then `Shutdown`, then a further command
that is never reached. -/
theorem c6_worker_loop_witness :
    runModel (fun i => ([Msg.training i], i = 0))
        0 ([Command.train 1 0, Command.vibe 2] ++ Command.shutdown :: [Command.vibe 3]) =
      runModel (fun i => ([Msg.training i], i = 0)) 0 [Command.train 1 0, Command.vibe 2] ∧
    (runModel (fun i => ([Msg.training i], i = 0)) 0 [Command.train 1 0, Command.vibe 2]).count
        Msg.error =
      (List.range 2).countP (fun i => (0 + i) = 0) := by
  have h := c6_worker_loop (fun i => ([Msg.training i], i = 0))
    [Command.train 1 0, Command.vibe 2] [Command.vibe 3] 0
    (by decide) (fun i => by simp)
  exact ⟨h.1, h.2⟩

/-! ## Generation (`src/model.rs`, `Model::generate`)

The inner word loop samples a position from the softmax of the current
context's logits; the numeric pipeline and the random draw are abstracted
by an oracle `next i t ctx`, the index sampled in word `i` at step `t`
with context `ctx` — by construction of the scan over the 27 cumulative
sums it always lies in `[0, 27)`.  On position 0 (the delimiter) the word
ends; otherwise `itol position` is appended to the output and the context
slides (`context.remove(0); context.push(position)`).  The loop has no
iteration cap; `fuel` bounds the recursion, and runs that would not
terminate are modelled as `none` ("does not run to completion"). -/

def genWord (next : Nat → List Nat → Nat) : Nat → Nat → List Nat → List Char → Option (List Char)
  | 0, _, _, _ => none
  | fuel + 1, t, ctx, out =>
    let p := next t ctx
    if p = 0 then some out
    else genWord next fuel (t + 1) (ctx.tail ++ [p]) (out ++ [itol p])

/-- The outer loop of `Model::generate`: one `Generated` message per
completed word (`i` is the word's index, `remaining` counts words still to
generate), then one `Finished` message. -/
def genGo (next : Nat → Nat → List Nat → Nat) (b fuel : Nat) : Nat → Nat → Option (List Msg)
  | _, 0 => some [Msg.finished]
  | i, remaining + 1 =>
    match genWord (next i) fuel 0 (List.replicate b 0) [] with
    | none => none
    | some w =>
      match genGo next b fuel (i + 1) remaining with
      | none => none
      | some rest => some (Msg.generated w :: rest)

/-- `Model::generate` for `count` words with block size `b`. -/
def generateModel (next : Nat → Nat → List Nat → Nat) (b fuel count : Nat) : Option (List Msg) :=
  genGo next b fuel 0 count

theorem itol_lowercase : ∀ p ∈ List.range 27, p ≠ 0 → 'a' ≤ itol p ∧ itol p ≤ 'z' := by
  decide

theorem genWord_chars {next : Nat → List Nat → Nat}
    (hn : ∀ t ctx, next t ctx < 27) :
    ∀ (fuel t : Nat) (ctx : List Nat) (out w : List Char),
      genWord next fuel t ctx out = some w →
      (∀ ch ∈ out, 'a' ≤ ch ∧ ch ≤ 'z') →
      ∀ ch ∈ w, 'a' ≤ ch ∧ ch ≤ 'z' := by
  intro fuel
  induction fuel with
  | zero =>
    intro t ctx out w h
    simp [genWord] at h
  | succ f ih =>
    intro t ctx out w h hout
    by_cases hp : next t ctx = 0
    · simp only [genWord, if_pos hp, Option.some.injEq] at h
      subst h
      exact hout
    · simp only [genWord, if_neg hp] at h
      refine ih (t + 1) (ctx.tail ++ [next t ctx]) (out ++ [itol (next t ctx)]) w h ?_
      intro ch hch
      rcases List.mem_append.mp hch with h1 | h2
      · exact hout ch h1
      · rw [List.mem_singleton] at h2
        subst h2
        exact itol_lowercase (next t ctx) (List.mem_range.mpr (hn t ctx)) hp

theorem genGo_spec {next : Nat → Nat → List Nat → Nat} {b fuel : Nat}
    (hn : ∀ i t ctx, next i t ctx < 27) :
    ∀ (remaining i : Nat) (msgs : List Msg),
      genGo next b fuel i remaining = some msgs →
      ∃ texts : List (List Char),
        msgs = texts.map Msg.generated ++ [Msg.finished] ∧
        texts.length = remaining ∧
        ∀ w ∈ texts, ∀ ch ∈ w, 'a' ≤ ch ∧ ch ≤ 'z' := by
  intro remaining
  induction remaining with
  | zero =>
    intro i msgs h
    simp only [genGo, Option.some.injEq] at h
    subst h
    exact ⟨[], rfl, rfl, by simp⟩
  | succ rem ih =>
    intro i msgs h
    simp only [genGo] at h
    cases hw : genWord (next i) fuel 0 (List.replicate b 0) [] with
    | none => rw [hw] at h; cases h
    | some w =>
      rw [hw] at h
      cases hr : genGo next b fuel (i + 1) rem with
      | none => rw [hr] at h; cases h
      | some rest =>
        rw [hr] at h
        rw [Option.some.injEq] at h
        subst h
        obtain ⟨texts, hm, hl, hc⟩ := ih (i + 1) rest hr
        refine ⟨w :: texts, ?_, ?_, ?_⟩
        · simp [hm]
        · simp [hl]
        · intro v hv
          rcases List.mem_cons.mp hv with h1 | h2
          · subst h1
            exact genWord_chars (hn i) fuel 0 (List.replicate b 0) [] v hw (by simp)
          · exact hc v h2

/-- C9: a `Generate {count}` invocation that runs to completion delivers
exactly `count` `Generated` messages followed by one `Finished`, and every
generated text consists only of the letters `'a'..'z'` (never the
delimiter `'.'`). -/
theorem c9_generate (next : Nat → Nat → List Nat → Nat) (b fuel count : Nat) (msgs : List Msg)
    (hn : ∀ i t ctx, next i t ctx < 27)
    (h : generateModel next b fuel count = some msgs) :
    ∃ texts : List (List Char),
      msgs = texts.map Msg.generated ++ [Msg.finished] ∧
      texts.length = count ∧
      ∀ w ∈ texts, ∀ ch ∈ w, 'a' ≤ ch ∧ ch ≤ 'z' :=
  genGo_spec hn count 0 msgs h

/-- C9 (witness): the generation theorem on the oracle that always samples
the delimiter: two empty words, then `Finished`. -/
theorem c9_generate_witness :
    ∃ texts : List (List Char),
      ([Msg.generated [], Msg.generated [], Msg.finished] : List Msg) =
        texts.map Msg.generated ++ [Msg.finished] ∧
      texts.length = 2 ∧
      ∀ w ∈ texts, ∀ ch ∈ w, 'a' ≤ ch ∧ ch ≤ 'z' :=
  c9_generate (fun _ _ _ => 0) 1 1 2 _ (by intro i t ctx; norm_num) rfl

/-! ## Batch index sampling (`src/model.rs`, `Model::train` lines 186-197)

Each training iteration draws `batch_size` uniform `f32` values in
`[0, rows)` (`Tensor::rand(0f32, rows as f32, ..)`) and truncates them to
unsigned integers (`to_dtype(U32)`).  The draws are modelled as exact
rationals; the hypothesis that each draw is `< rows` encodes the sampler's
half-open upper bound, which coincides with the row count exactly when the
row count is exactly representable as an `f32`. -/

/-- Truncation of a nonnegative draw to an unsigned integer. -/
def batchIndex (u : ℚ) : Nat := ⌊u⌋₊

/-- The batch of row indices drawn in one training iteration. -/
def batchIndices (draws : List ℚ) : List Nat := draws.map batchIndex

/-- `index_select`: gather rows by index, failing on any out-of-bounds
index. -/
def indexSelect {α : Type} (rows : List α) : List Nat → Option (List α)
  | [] => some []
  | i :: rest =>
    match rows.get? i with
    | none => none
    | some r =>
      match indexSelect rows rest with
      | none => none
      | some rs => some (r :: rs)

theorem indexSelect_isSome {α : Type} (rows : List α) :
    ∀ idx : List Nat, (∀ i ∈ idx, i < rows.length) →
      (indexSelect rows idx).isSome = true := by
  intro idx
  induction idx with
  | nil => intro _; rfl
  | cons i rest ih =>
    intro h
    have hi : i < rows.length := h i (List.mem_cons_self i rest)
    have hr := ih (fun j hj => h j (List.mem_cons_of_mem i hj))
    simp only [indexSelect, List.get?_eq_get hi]
    cases hsel : indexSelect rows rest with
    | none => rw [hsel] at hr; cases hr
    | some rs => rfl

/-- C10: when every uniform draw lies in `[0, rows)` — which the sampler
guarantees whenever the training row count is exactly representable as an
`f32` — every truncated batch index is strictly below the row count and
the row gather succeeds. -/
theorem c10_batch_in_bounds (rows : List (List Nat)) (draws : List ℚ)
    (h : ∀ u ∈ draws, 0 ≤ u ∧ u < (rows.length : ℚ)) :
    (∀ i ∈ batchIndices draws, i < rows.length) ∧
    (indexSelect rows (batchIndices draws)).isSome = true := by
  have hb : ∀ i ∈ batchIndices draws, i < rows.length := by
    intro i hi
    obtain ⟨u, hu, rfl⟩ := List.mem_map.mp hi
    exact (Nat.floor_lt (h u hu).1).mpr (by exact_mod_cast (h u hu).2)
  exact ⟨hb, indexSelect_isSome rows (batchIndices draws) hb⟩

/-- C10 (witness): three rows, draws `0`, `3/2`, `5/2`: all indices in
bounds and the gather succeeds. -/
theorem c10_batch_in_bounds_witness :
    (∀ i ∈ batchIndices [0, 3 / 2, 5 / 2], i < ([[0], [1], [2]] : List (List Nat)).length) ∧
    (indexSelect ([[0], [1], [2]] : List (List Nat)) (batchIndices [0, 3 / 2, 5 / 2])).isSome =
      true := by
  refine c10_batch_in_bounds [[0], [1], [2]] [0, 3 / 2, 5 / 2] ?_
  intro u hu
  rcases List.mem_cons.mp hu with rfl | hu2
  · norm_num
  rcases List.mem_cons.mp hu2 with rfl | hu3
  · norm_num
  rcases List.mem_cons.mp hu3 with rfl | hu4
  · norm_num
  · simp at hu4

end GpTurd
